import Mathlib

/- Shallow embedding of the typhon port-graph core (src/typhon/port_graph.py):
the PortGraphMonitor refresh/diff/subscription logic (update_ports, get_edges)
and the auto-layout engine (position_nodes with its inner position_port),
together with theorems settling the specification claims.

Modelling conventions:
* Port identifiers are Lean `String`s; Python's string comparison
  (lexicographic on Unicode code points) is embedded as `strLE` below.
* Python sets are modelled as lists built with `dedup`; the sorted lists the
  code emits are produced with `List.insertionSort`; set-level statements in
  claims use `List.toFinset`.
* A Python exception escaping a function is modelled by an `Option`-valued
  result of `none` (the `KeyError` raised by `port_map[port]` in the
  unsubscribe loop of `update_ports`).
* Floating-point coordinates are modelled by an arbitrary linearly ordered
  ring `K` (the code performs only ring operations and comparisons on them);
  concrete instances use `K = ℤ`.
* ophyd plugin objects are opaque: the code touches exactly two of their
  capabilities, the `nd_array_port` signal (absent attribute = caught
  `AttributeError`, present = a readable/subscribable upstream-port value)
  and whether the plugin is a `CamBase` instance.  The `Plugin` structure
  records exactly these.  Subscription handles are opaque; only their
  presence per port is observable, so the subscription dictionary is
  modelled by the list of subscribed port names. -/

namespace PortGraph

/-- Boolean lexicographic comparison of character lists by Unicode code
point: the order Python uses when comparing the port-name strings that
`sorted(...)` receives in `update_ports` and `position_nodes`. -/
def listLeB : List Char → List Char → Bool
  | [], _ => true
  | _ :: _, [] => false
  | a :: as, b :: bs =>
    if a.val.toNat < b.val.toNat then true
    else if b.val.toNat < a.val.toNat then false
    else listLeB as bs

/-- Python's `<=` on strings (lexicographic on code points). -/
def strLeB (a b : String) : Bool := listLeB a.data b.data

/-- Propositional form of `strLeB`; the sorting relation for port names. -/
def strLE (a b : String) : Prop := strLeB a b = true

instance : DecidableRel strLE := fun a b => by unfold strLE; infer_instance

theorem listLeB_total : ∀ a b : List Char, listLeB a b = true ∨ listLeB b a = true
  | [], _ => Or.inl rfl
  | _ :: _, [] => Or.inr rfl
  | a :: as, b :: bs => by
    rcases Nat.lt_trichotomy a.val.toNat b.val.toNat with h | h | h
    · left; simp [listLeB, h]
    · have h1 : ¬ a.val.toNat < b.val.toNat := by omega
      have h2 : ¬ b.val.toNat < a.val.toNat := by omega
      simpa [listLeB, h1, h2] using listLeB_total as bs
    · right; simp [listLeB, h]

theorem listLeB_trans :
    ∀ a b c : List Char, listLeB a b = true → listLeB b c = true → listLeB a c = true
  | [], _, _ => fun _ _ => rfl
  | _ :: _, [], _ => fun hab _ => by simp [listLeB] at hab
  | _ :: _, _ :: _, [] => fun _ hbc => by simp [listLeB] at hbc
  | a :: as, b :: bs, c :: cs => fun hab hbc => by
    by_cases h1 : a.val.toNat < b.val.toNat
    · by_cases h2 : b.val.toNat < c.val.toNat
      · have h3 : a.val.toNat < c.val.toNat := by omega
        simp [listLeB, h3]
      · by_cases h3 : c.val.toNat < b.val.toNat
        · simp [listLeB, h2, h3] at hbc
        · have h4 : a.val.toNat < c.val.toNat := by omega
          simp [listLeB, h4]
    · by_cases h1' : b.val.toNat < a.val.toNat
      · simp [listLeB, h1, h1'] at hab
      · by_cases h2 : b.val.toNat < c.val.toNat
        · have h3 : a.val.toNat < c.val.toNat := by omega
          simp [listLeB, h3]
        · by_cases h3 : c.val.toNat < b.val.toNat
          · simp [listLeB, h2, h3] at hbc
          · have h4 : ¬ a.val.toNat < c.val.toNat := by omega
            have h5 : ¬ c.val.toNat < a.val.toNat := by omega
            simp only [listLeB, h1, h1', h2, h3, h4, h5, if_neg, if_false] at hab hbc ⊢
            exact listLeB_trans as bs cs hab hbc

theorem listLeB_antisymm :
    ∀ a b : List Char, listLeB a b = true → listLeB b a = true → a = b
  | [], [] => fun _ _ => rfl
  | [], _ :: _ => fun _ hba => by simp [listLeB] at hba
  | _ :: _, [] => fun hab _ => by simp [listLeB] at hab
  | a :: as, b :: bs => fun hab hba => by
    by_cases h1 : a.val.toNat < b.val.toNat
    · have h2 : ¬ b.val.toNat < a.val.toNat := by omega
      simp [listLeB, h1, h2] at hba
    · by_cases h2 : b.val.toNat < a.val.toNat
      · simp [listLeB, h1, h2] at hab
      · have hc : a = b := Char.ext (UInt32.ext (by omega))
        have hab' : listLeB as bs = true := by simpa [listLeB, h1, h2] using hab
        have hba' : listLeB bs as = true := by simpa [listLeB, h1, h2] using hba
        rw [hc, listLeB_antisymm as bs hab' hba']

instance : IsTotal String strLE :=
  ⟨fun a b => (listLeB_total a.data b.data).imp id id⟩

instance : IsTrans String strLE :=
  ⟨fun a b c => listLeB_trans a.data b.data c.data⟩

instance : IsAntisymm String strLE :=
  ⟨fun a b hab hba => by
    have h := listLeB_antisymm a.data b.data hab hba
    cases a; cases b
    exact congrArg String.mk h⟩

/-- A directed edge (source port name, destination port name). -/
abbrev Edge := String × String

/-- Python's tuple comparison on edges: lexicographic by (src, dest). -/
def edgeLE (a b : Edge) : Prop := if a.1 = b.1 then strLE a.2 b.2 else strLE a.1 b.1

instance : DecidableRel edgeLE := fun a b => by unfold edgeLE; infer_instance

instance : IsTotal Edge edgeLE :=
  ⟨fun a b => by
    by_cases h : a.1 = b.1
    · simpa [edgeLE, h] using total_of strLE a.2 b.2
    · simpa [edgeLE, h, Ne.symm h] using total_of strLE a.1 b.1⟩

instance : IsTrans Edge edgeLE :=
  ⟨fun a b c hab hbc => by
    by_cases h1 : a.1 = b.1
    · by_cases h2 : b.1 = c.1
      · rw [edgeLE, if_pos (h1.trans h2)]
        rw [edgeLE, if_pos h1] at hab
        rw [edgeLE, if_pos h2] at hbc
        exact trans_of strLE hab hbc
      · have h3 : a.1 ≠ c.1 := h1 ▸ h2
        rw [edgeLE, if_neg h3, h1]
        rwa [edgeLE, if_neg h2] at hbc
    · by_cases h2 : b.1 = c.1
      · have h3 : a.1 ≠ c.1 := fun h => h1 (h.trans h2.symm)
        rw [edgeLE, if_neg h3, ← h2]
        rwa [edgeLE, if_neg h1] at hab
      · rw [edgeLE, if_neg h1] at hab
        rw [edgeLE, if_neg h2] at hbc
        by_cases h3 : a.1 = c.1
        · exact absurd (antisymm_of strLE hab (h3 ▸ hbc)) h1
        · rw [edgeLE, if_neg h3]
          exact trans_of strLE hab hbc⟩

instance : IsAntisymm Edge edgeLE :=
  ⟨fun a b hab hba => by
    by_cases h : a.1 = b.1
    · rw [edgeLE, if_pos h] at hab
      rw [edgeLE, if_pos h.symm] at hba
      exact Prod.ext_iff.mpr ⟨h, antisymm_of strLE hab hba⟩
    · rw [edgeLE, if_neg h] at hab
      rw [edgeLE, if_neg (Ne.symm h)] at hba
      exact absurd (antisymm_of strLE hab hba) h⟩

/-- The two capabilities of an ophyd plugin object that the monitor and the
layout engine interrogate: the value of its `nd_array_port` signal
(`none` models a missing attribute, i.e. a caught `AttributeError`), and
whether the plugin is a `CamBase` instance. -/
structure Plugin where
  nd_array_port : Option String
  is_camera : Bool
deriving DecidableEq

/-- The port dictionary returned by `detector.get_asyn_port_dictionary()`:
an insertion-ordered mapping from port name to plugin. -/
abbrev PortMap := List (String × Plugin)

/-- Python's `list(port_map)`: the keys in dictionary order. -/
def keys (pm : PortMap) : List String := pm.map Prod.fst

/-- Embedding of `PortGraphMonitor.get_edges`: for every port whose plugin
has an `nd_array_port` attribute, read it as `in_port` and add the edge
`(in_port, out_port)` to a set.  Ports lacking the attribute contribute
nothing (the `AttributeError` branch). -/
def get_edges (pm : PortMap) : List Edge :=
  (pm.filterMap fun oc => oc.2.nd_array_port.map fun in_port => (in_port, oc.1)).dedup

/-- The monitor state: `known_ports` (list of ids, last-seen query order),
`edges` (a set of directed edges), and the ports having a live
subscription in `self._subscriptions`. -/
structure GraphState where
  known_ports : List String
  edges : List Edge
  subscriptions : List String
deriving DecidableEq

/-- The four sorted delta sequences computed by one refresh. -/
structure ChangeReport where
  ports_removed : List String
  ports_added : List String
  edges_removed : List Edge
  edges_added : List Edge
deriving DecidableEq

/-- The condition under which `update_ports` emits its aggregate `update`
signal: some delta sequence is nonempty. -/
def ChangeReport.has_changes (r : ChangeReport) : Bool :=
  !(r.ports_removed.isEmpty && r.ports_added.isEmpty &&
    r.edges_removed.isEmpty && r.edges_added.isEmpty)

/-- Python's `sorted(set_of_strings)`. -/
def sortedStrSet (l : List String) : List String := List.insertionSort strLE l.dedup

/-- Python's `sorted(set_of_edges)` (tuples compare lexicographically). -/
def sortedEdgeSet (l : List Edge) : List Edge := List.insertionSort edgeLE l.dedup

/-- Sorting relation for `sorted(port_map.items())`: keys are unique, so the
tuple comparison is decided by the key. -/
def itemLE (a b : String × Plugin) : Prop := strLE a.1 b.1

instance : DecidableRel itemLE := fun a b => by unfold itemLE; infer_instance

/-- The subscription loop at the top of `update_ports`: for every port of
the fresh port map, in sorted order, subscribe to its `nd_array_port`
signal unless the port is already subscribed or the plugin lacks the
attribute.  Only the resulting set of subscribed ports is observable. -/
def subscribe_step (subs : List String) (pm : PortMap) : List String :=
  (List.insertionSort itemLE pm).foldl
    (fun s pc => if pc.1 ∉ s ∧ pc.2.nd_array_port.isSome then s ++ [pc.1] else s) subs

/-- The unsubscribe loop at the end of the critical section of
`update_ports`: for each removed port, `pop` its subscription handle and,
when one was present, evaluate `port_map[port].nd_array_port.unsubscribe(sub)`.
The lookup `port_map[port]` raises `KeyError` when `port` is not a key of
the fresh port map; a raised exception is modelled as `none`. -/
def cleanup (pm : PortMap) : List String → List String → Option (List String)
  | subs, [] => some subs
  | subs, port :: rest =>
    if port ∈ subs then
      match List.lookup port pm with
      | none => none
      | some _ => cleanup pm (subs.erase port) rest
    else cleanup pm subs rest

/-- Embedding of `PortGraphMonitor.update_ports` for one refresh, given the
freshly queried port map `pm` (the code reads `self.port_map` once and
`get_edges` re-reads the same cached dictionary).  It subscribes new ports,
computes the four sorted deltas against the previous state, commits
`known_ports ← list(port_map)` and `edges ← get_edges`, and runs the
unsubscribe loop; `none` models the refresh raising `KeyError` there. -/
def update_ports (st : GraphState) (pm : PortMap) : Option (GraphState × ChangeReport) :=
  let edges := get_edges pm
  let subs := subscribe_step st.subscriptions pm
  let ports_removed := sortedStrSet (st.known_ports.filter fun p => decide (p ∉ keys pm))
  let ports_added := sortedStrSet ((keys pm).filter fun p => decide (p ∉ st.known_ports))
  let edges_removed := sortedEdgeSet (st.edges.filter fun e => decide (e ∉ edges))
  let edges_added := sortedEdgeSet (edges.filter fun e => decide (e ∉ st.edges))
  match cleanup pm subs ports_removed with
  | none => none
  | some subs2 =>
    some (⟨keys pm, edges, subs2⟩, ⟨ports_removed, ports_added, edges_removed, edges_added⟩)

section Layout

variable {K : Type} [LinearOrderedRing K]

/-- The running `positions` dictionary of `position_nodes`: port name to
(x, y), insertion-ordered. -/
abbrev PosMap (K : Type) := List (String × (K × K))

/-- Python dict assignment `positions[port] = (x, y)`: update in place when
the key exists, append otherwise. -/
def dictInsert (k : String) (v : K × K) : PosMap K → PosMap K
  | [] => [(k, v)]
  | kv :: rest => if kv.1 = k then (k, v) :: rest else kv :: dictInsert k v rest

/-- Python's `max(y for x, y in positions.values())`.  The `[]` case is
never reached: the code only evaluates the maximum behind a nonemptiness
guard (or right after an insertion). -/
def maxY : PosMap K → K
  | [] => 0
  | kv :: rest => rest.foldl (fun acc kv2 => max acc kv2.2.2) kv.2.2

/-- The child list computed inside `position_port`:
`[dest for src, dest in edges if src == port and src != dest]`. -/
def destsOf (edges : List Edge) (port : String) : List String :=
  (edges.filter fun e => decide (e.1 = port ∧ e.1 ≠ e.2)).map Prod.snd

/-- The y coordinate handed to the idx-th child in the loop
`for idx, dest in enumerate(sorted(dests))`: `y + idx * y_spacing` applied
to the starting value `y - y_spacing * (len(dests) // 2)`. -/
def child_y (y0 sy : K) (idx : Nat) : K := y0 + (idx : K) * sy

/-- The body of the `for idx, dest in enumerate(sorted(dests))` loop:
place each child via `place` at `(cx, child_y y0 sy idx)`, threading the
positions dictionary; `none` propagates a failed recursive placement. -/
def position_children (place : String → K → K → PosMap K → Option (PosMap K)) (sy : K) :
    List String → Nat → K → K → PosMap K → Option (PosMap K)
  | [], _, _, _, pos => some pos
  | dest :: rest, idx, cx, y0, pos =>
    match place dest cx (child_y y0 sy idx) pos with
    | none => none
    | some pos2 => position_children place sy rest (idx + 1) cx y0 pos2

/-- Embedding of the inner recursive `position_port(port, x, y)` of
`position_nodes`.  The Python recursion carries no termination guarantee;
the embedding makes the recursion depth explicit as `fuel`, with `none`
meaning the recursion exceeds that depth (for fuel large enough on
well-founded inputs the result is fuel-independent). -/
def position_port (edges : List Edge) (sx sy : K) :
    Nat → String → K → K → PosMap K → Option (PosMap K)
  | 0, _, _, _, _ => none
  | fuel + 1, port, x, y, pos =>
    position_children (fun d cx cy p => position_port edges sx sy fuel d cx cy p) sy
      (List.insertionSort strLE (destsOf edges port)) 0 (x + sx)
      (y - sy * (((destsOf edges port).length / 2 : Nat) : K))
      (dictInsert port (x, y) pos)

/-- The loop `for camera in sorted(cameras)` of `position_nodes`: place each
camera root at `(start_x, y)`, then advance `y` to `y_spacing` plus the
maximum placed y. -/
def camera_loop (edges : List Edge) (sx sy : K) (fuel : Nat) :
    List String → K → K → PosMap K → Option (PosMap K × K)
  | [], _, y, pos => some (pos, y)
  | cam :: rest, x, y, pos =>
    match position_port edges sx sy fuel cam x y pos with
    | none => none
    | some pos2 => camera_loop edges sx sy fuel rest x (sy + maxY pos2) pos2

/-- The final loop `for port in port_map: if port not in positions:` of
`position_nodes`.  Note that `x` and `y` are fixed before the loop and not
advanced inside it. -/
def orphan_loop (edges : List Edge) (sx sy : K) (fuel : Nat) :
    List String → K → K → PosMap K → Option (PosMap K)
  | [], _, _, pos => some pos
  | p :: rest, x, y, pos =>
    if (List.lookup p pos).isSome then orphan_loop edges sx sy fuel rest x y pos
    else
      match position_port edges sx sy fuel p x y pos with
      | none => none
      | some pos2 => orphan_loop edges sx sy fuel rest x y pos2

/-- Embedding of `position_nodes(edges, port_map, x_spacing, y_spacing, x, y)`:
place every camera-kind root (sorted by name) and its descendants, then
recompute `y` once behind the `if positions:` guard, and finally place every
still-unpositioned port of the port map at that same `(start_x, y)`. -/
def position_nodes (edges : List Edge) (port_map : PortMap) (sx sy x y : K) (fuel : Nat) :
    Option (PosMap K) :=
  let cameras := (port_map.filter fun pc => pc.2.is_camera).map Prod.fst
  match camera_loop edges sx sy fuel (List.insertionSort strLE cameras) x y [] with
  | none => none
  | some (pos, y1) =>
    let y2 := if pos.isEmpty then y1 else sy + maxY pos
    orphan_loop edges sx sy fuel (keys port_map) x y2 pos

end Layout

/-- Embedding of the `edges_added` loop of `PortGraphFlowchart._ports_updated`
(the presentation layer): an added edge one of whose endpoints is not a key
of `self._port_nodes` is logged and skipped (`continue`); otherwise the edge
joins the flowchart's edge set `self._edges` (a `connectTerminals` failure
is caught and does not prevent the add, and a self-edge skips only the
terminal connection). -/
def apply_edges_added (port_nodes : List String) (fc_edges : List Edge) :
    List Edge → List Edge
  | [] => fc_edges
  | e :: rest =>
    if e.1 ∈ port_nodes ∧ e.2 ∈ port_nodes then
      apply_edges_added port_nodes (fc_edges.insert e) rest
    else apply_edges_added port_nodes fc_edges rest

/-- A monitor state in which the port named plug is subscribed, and a fresh
port map from which plug has disappeared: the failing input for C2. -/
def crashState : GraphState := ⟨["cam", "plug"], [("cam", "plug")], ["plug"]⟩

/-- The fresh port map for the C2 failing input: only cam remains. -/
def crashPortMap : PortMap := [("cam", ⟨none, true⟩)]

/-- C2 (code bug): removing a port that holds a live subscription makes the
refresh raise.  The unsubscribe loop evaluates `port_map[port]` on the
freshly queried port map, which by construction no longer contains any
removed port, so the lookup raises `KeyError` (modelled as `none`): the
handle is popped but not released and the refresh does not run to
completion, contradicting the claimed unconditional release-on-removal. -/
theorem update_ports_crashes_on_subscribed_removal :
    update_ports crashState crashPortMap = none ∧
    "plug" ∈ crashState.subscriptions ∧
    "plug" ∈ crashState.known_ports ∧
    "plug" ∉ keys crashPortMap := by decide

/-- A fresh port map whose single plugin reports the unknown upstream port
ghost: the C3 counterexample input. -/
def danglingPortMap : PortMap := [("plugA", ⟨some "ghost", false⟩)]

/-- C3 counterexample: a refresh whose emitted report contains, in
`edges_added`, the edge (ghost, plugA) although ghost is absent from the
freshly queried port set — `update_ports` does not drop dangling edges from
the report it emits. -/
theorem dangling_edge_reaches_report :
    (update_ports ⟨[], [], []⟩ danglingPortMap).map (fun sr => sr.2.edges_added) =
      some [("ghost", "plugA")] ∧
    "ghost" ∉ keys danglingPortMap := by decide

/-- C3 amended: the emitted report may contain a dangling edge in
`edges_added`; it is the presentation layer (`_ports_updated`) that drops —
with a diagnostic, not a crash — every added edge referencing an unknown
node: any edge of the flowchart's edge set after applying an `edges_added`
list either was already present or has both endpoints among the known port
nodes. -/
theorem dangling_edges_dropped_by_flowchart (port_nodes : List String) :
    ∀ (l : List Edge) (fc_edges : List Edge) (e : Edge),
      e ∈ apply_edges_added port_nodes fc_edges l →
      e ∈ fc_edges ∨ (e.1 ∈ port_nodes ∧ e.2 ∈ port_nodes)
  | [], _, _, h => Or.inl h
  | a :: rest, fc_edges, e, h => by
    rw [apply_edges_added] at h
    split at h
    · rcases dangling_edges_dropped_by_flowchart port_nodes rest _ e h with h2 | h2
      · rcases List.mem_insert_iff.mp h2 with rfl | h3
        · right; assumption
        · exact Or.inl h3
      · exact Or.inr h2
    · exact dangling_edges_dropped_by_flowchart port_nodes rest _ e h

/-- Witness for the C3 amended theorem at a concrete input. -/
theorem dangling_edges_dropped_by_flowchart_witness :
    ("cam", "plugA") ∈ ([] : List Edge) ∨
      ("cam" ∈ ["cam", "plugA"] ∧ "plugA" ∈ ["cam", "plugA"]) :=
  dangling_edges_dropped_by_flowchart ["cam", "plugA"] [("cam", "plugA")] []
    ("cam", "plugA") (by decide)

/-- C9: characterisation of `get_edges`.  An edge (src, dest) is returned
exactly when dest is a port of the fresh port map whose plugin exposes the
`nd_array_port` attribute with value src; hence every destination endpoint
is a key of the port map, while the source endpoint is whatever the
attribute reports and need not be a known port (the concrete conjunct shows
a returned edge whose source ghost is not a key). -/
theorem get_edges_characterisation (pm : PortMap) :
    (∀ e : Edge, e ∈ get_edges pm ↔
      ∃ pl : Plugin, (e.2, pl) ∈ pm ∧ pl.nd_array_port = some e.1) ∧
    (∀ e ∈ get_edges pm, e.2 ∈ keys pm) ∧
    (get_edges [("plugA", ⟨some "ghost", false⟩)] = [("ghost", "plugA")] ∧
      "ghost" ∉ keys [("plugA", Plugin.mk (some "ghost") false)]) := by
  have h1 : ∀ e : Edge, e ∈ get_edges pm ↔
      ∃ pl : Plugin, (e.2, pl) ∈ pm ∧ pl.nd_array_port = some e.1 := by
    intro e
    simp only [get_edges, List.mem_dedup, List.mem_filterMap, Option.map_eq_some']
    constructor
    · rintro ⟨⟨d, pl⟩, hmem, ip, hnd, heq⟩
      obtain ⟨rfl, rfl⟩ : ip = e.1 ∧ d = e.2 := by
        cases e; cases heq; exact ⟨rfl, rfl⟩
      exact ⟨pl, hmem, hnd⟩
    · rintro ⟨pl, hmem, hnd⟩
      exact ⟨(e.2, pl), hmem, e.1, hnd, by cases e; rfl⟩
  refine ⟨h1, fun e he => ?_, by decide⟩
  obtain ⟨pl, hmem, _⟩ := (h1 e).mp he
  exact List.mem_map.mpr ⟨(e.2, pl), hmem, rfl⟩

/-- Witness for C9 at a concrete input. -/
theorem get_edges_characterisation_witness :
    ("ghost", "plugA").2 ∈ keys [("plugA", Plugin.mk (some "ghost") false)] :=
  (get_edges_characterisation [("plugA", Plugin.mk (some "ghost") false)]).2.1
    ("ghost", "plugA") (by decide)

theorem mem_sortedStrSet {l : List String} {p : String} : p ∈ sortedStrSet l ↔ p ∈ l := by
  simp [sortedStrSet]

theorem sorted_sortedStrSet (l : List String) : (sortedStrSet l).Sorted strLE :=
  List.sorted_insertionSort strLE _

theorem nodup_sortedStrSet (l : List String) : (sortedStrSet l).Nodup :=
  ((List.perm_insertionSort strLE l.dedup).nodup_iff).mpr l.nodup_dedup

theorem mem_sortedEdgeSet {l : List Edge} {e : Edge} : e ∈ sortedEdgeSet l ↔ e ∈ l := by
  simp [sortedEdgeSet]

theorem sorted_sortedEdgeSet (l : List Edge) : (sortedEdgeSet l).Sorted edgeLE :=
  List.sorted_insertionSort edgeLE _

theorem nodup_sortedEdgeSet (l : List Edge) : (sortedEdgeSet l).Nodup :=
  ((List.perm_insertionSort edgeLE l.dedup).nodup_iff).mpr l.nodup_dedup

/-- Inversion of a successful `update_ports` call: the committed state and
the four emitted delta lists in terms of the inputs. -/
theorem update_ports_some {st : GraphState} {pm : PortMap} {st2 : GraphState}
    {r : ChangeReport} (h : update_ports st pm = some (st2, r)) :
    st2.known_ports = keys pm ∧ st2.edges = get_edges pm ∧
    r.ports_removed = sortedStrSet (st.known_ports.filter fun p => decide (p ∉ keys pm)) ∧
    r.ports_added = sortedStrSet ((keys pm).filter fun p => decide (p ∉ st.known_ports)) ∧
    r.edges_removed = sortedEdgeSet (st.edges.filter fun e => decide (e ∉ get_edges pm)) ∧
    r.edges_added = sortedEdgeSet ((get_edges pm).filter fun e => decide (e ∉ st.edges)) := by
  simp only [update_ports] at h
  rcases hc : cleanup pm (subscribe_step st.subscriptions pm)
      (sortedStrSet (st.known_ports.filter fun p => decide (p ∉ keys pm))) with _ | subs2
  · rw [hc] at h; exact absurd h (by simp)
  · rw [hc] at h
    simp only [Option.some.injEq, Prod.mk.injEq] at h
    obtain ⟨h1, h2⟩ := h
    rw [← h1, ← h2]
    exact ⟨rfl, rfl, rfl, rfl, rfl, rfl⟩

/-- C1: for every refresh that runs to completion, the report's
`ports_removed` is exactly the set difference of the previous known ports
and the fresh port map's keys, sorted ascending and without duplicates;
`ports_added`, `edges_removed` and `edges_added` are the analogous sorted
differences; and applying the four deltas to the previous state reproduces
the newly committed state exactly (at the set level at which the
presentation layer consumes the report). -/
theorem update_ports_diff_correct (st : GraphState) (pm : PortMap)
    (st2 : GraphState) (r : ChangeReport)
    (h : update_ports st pm = some (st2, r)) :
    (∀ p, p ∈ r.ports_removed ↔ (p ∈ st.known_ports ∧ p ∉ keys pm)) ∧
    r.ports_removed.Sorted strLE ∧ r.ports_removed.Nodup ∧
    (∀ p, p ∈ r.ports_added ↔ (p ∈ keys pm ∧ p ∉ st.known_ports)) ∧
    r.ports_added.Sorted strLE ∧ r.ports_added.Nodup ∧
    (∀ e, e ∈ r.edges_removed ↔ (e ∈ st.edges ∧ e ∉ get_edges pm)) ∧
    r.edges_removed.Sorted edgeLE ∧ r.edges_removed.Nodup ∧
    (∀ e, e ∈ r.edges_added ↔ (e ∈ get_edges pm ∧ e ∉ st.edges)) ∧
    r.edges_added.Sorted edgeLE ∧ r.edges_added.Nodup ∧
    st2.known_ports.toFinset =
      (st.known_ports.toFinset \ r.ports_removed.toFinset) ∪ r.ports_added.toFinset ∧
    st2.edges.toFinset =
      (st.edges.toFinset \ r.edges_removed.toFinset) ∪ r.edges_added.toFinset := by
  obtain ⟨hk, he, hpr, hpa, her, hea⟩ := update_ports_some h
  have mpr : ∀ p, p ∈ r.ports_removed ↔ (p ∈ st.known_ports ∧ p ∉ keys pm) := by
    intro p; rw [hpr, mem_sortedStrSet]; simp [List.mem_filter]
  have mpa : ∀ p, p ∈ r.ports_added ↔ (p ∈ keys pm ∧ p ∉ st.known_ports) := by
    intro p; rw [hpa, mem_sortedStrSet]; simp [List.mem_filter]
  have mer : ∀ e, e ∈ r.edges_removed ↔ (e ∈ st.edges ∧ e ∉ get_edges pm) := by
    intro e; rw [her, mem_sortedEdgeSet]; simp [List.mem_filter]
  have mea : ∀ e, e ∈ r.edges_added ↔ (e ∈ get_edges pm ∧ e ∉ st.edges) := by
    intro e; rw [hea, mem_sortedEdgeSet]; simp [List.mem_filter]
  refine ⟨mpr, hpr ▸ sorted_sortedStrSet _, hpr ▸ nodup_sortedStrSet _,
    mpa, hpa ▸ sorted_sortedStrSet _, hpa ▸ nodup_sortedStrSet _,
    mer, her ▸ sorted_sortedEdgeSet _, her ▸ nodup_sortedEdgeSet _,
    mea, hea ▸ sorted_sortedEdgeSet _, hea ▸ nodup_sortedEdgeSet _, ?_, ?_⟩
  · ext p
    simp only [hk, List.mem_toFinset, Finset.mem_union, Finset.mem_sdiff, mpr, mpa]
    by_cases h1 : p ∈ keys pm <;> by_cases h2 : p ∈ st.known_ports <;> simp [h1, h2]
  · ext e
    simp only [he, List.mem_toFinset, Finset.mem_union, Finset.mem_sdiff, mer, mea]
    by_cases h1 : e ∈ get_edges pm <;> by_cases h2 : e ∈ st.edges <;> simp [h1, h2]

/-- Witness for C1 at a concrete refresh. -/
theorem update_ports_diff_correct_witness :
    "plugA" ∈ (ChangeReport.mk [] ["cam", "plugA"] [] [("cam", "plugA")]).ports_added ↔
      ("plugA" ∈ keys [("cam", Plugin.mk none true), ("plugA", Plugin.mk (some "cam") false)] ∧
        "plugA" ∉ ([] : List String)) :=
  ((update_ports_diff_correct ⟨[], [], []⟩
      [("cam", Plugin.mk none true), ("plugA", Plugin.mk (some "cam") false)]
      ⟨["cam", "plugA"], [("cam", "plugA")], ["plugA"]⟩
      ⟨[], ["cam", "plugA"], [], [("cam", "plugA")]⟩
      (by decide)).2.2.2.1) "plugA"

/-- C4: a second refresh against an unchanged data source succeeds, emits a
report whose four delta sequences are all empty, and that report has
`has_changes = false`, so no aggregate `update` signal is emitted. -/
theorem refresh_idempotent (st st2 : GraphState) (r : ChangeReport) (pm : PortMap)
    (h : update_ports st pm = some (st2, r)) :
    update_ports st2 pm =
      some (⟨keys pm, get_edges pm, subscribe_step st2.subscriptions pm⟩,
            ⟨[], [], [], []⟩) ∧
    ChangeReport.has_changes ⟨[], [], [], []⟩ = false := by
  obtain ⟨hk, he, -⟩ := update_ports_some h
  have hpr : st2.known_ports.filter (fun p => decide (p ∉ keys pm)) = [] := by
    rw [hk]; exact List.filter_eq_nil_iff.mpr (by simp)
  have hpa : (keys pm).filter (fun p => decide (p ∉ st2.known_ports)) = [] := by
    rw [hk]; exact List.filter_eq_nil_iff.mpr (by simp)
  have her : st2.edges.filter (fun e => decide (e ∉ get_edges pm)) = [] := by
    rw [he]; exact List.filter_eq_nil_iff.mpr (by simp)
  have hea : (get_edges pm).filter (fun e => decide (e ∉ st2.edges)) = [] := by
    rw [he]; exact List.filter_eq_nil_iff.mpr (by simp)
  refine ⟨?_, rfl⟩
  simp only [update_ports, hpr, hpa, her, hea]
  rfl

/-- Witness for C4 at a concrete refresh. -/
theorem refresh_idempotent_witness :
    update_ports ⟨["cam"], [], []⟩ [("cam", Plugin.mk none true)] =
      some (⟨keys [("cam", Plugin.mk none true)], get_edges [("cam", Plugin.mk none true)],
             subscribe_step [] [("cam", Plugin.mk none true)]⟩,
            ⟨[], [], [], []⟩) ∧
    ChangeReport.has_changes ⟨[], [], [], []⟩ = false :=
  refresh_idempotent ⟨[], [], []⟩ ⟨["cam"], [], []⟩ ⟨[], ["cam"], [], []⟩
    [("cam", Plugin.mk none true)] (by decide)

/-- Edge list of the C5 counterexample: one camera root R with children A
and B, each of which has two children of its own. -/
def collideEdges : List Edge :=
  [("R", "A"), ("R", "B"), ("A", "A1"), ("A", "A2"), ("B", "B1"), ("B", "B2")]

/-- Port map of the C5 counterexample. -/
def collidePortMap : PortMap :=
  [("R", ⟨none, true⟩), ("A", ⟨some "R", false⟩), ("B", ⟨some "R", false⟩),
   ("A1", ⟨some "A", false⟩), ("A2", ⟨some "A", false⟩),
   ("B1", ⟨some "B", false⟩), ("B2", ⟨some "B", false⟩)]

/-- C5 counterexample: with x_spacing 150 and y_spacing 60, the distinct
ports A2 and B1 — both placed during the single camera root R's subtree,
both at depth 2 (x column 300) — receive the same y coordinate −60: their
y difference 0 is not at least y_spacing.  Only siblings of one parent are
spaced; cousins in different branches may collide. -/
theorem layout_same_depth_collision :
    position_nodes collideEdges collidePortMap (150 : ℤ) 60 0 0 4 =
      some [("R", (0, 0)), ("A", (150, -60)), ("A1", (300, -120)), ("A2", (300, -60)),
            ("B", (150, 0)), ("B1", (300, -60)), ("B2", (300, 0))] ∧
    ("A2" ≠ "B1" ∧ ¬ (60 : ℤ) ≤ |(-60 : ℤ) - (-60 : ℤ)|) := by decide

/-- C5 amended: the guarantee the code does give is sibling separation.
Within one `position_port` call the i-th sorted child is placed at
`child_y y0 sy i`, so two distinct children of the same parent are placed
at y coordinates at least `y_spacing` apart (for nonnegative spacing);
ports at the same depth in different branches may still coincide (see the
counterexample). -/
theorem sibling_placement_spacing {K : Type} [LinearOrderedRing K] (y0 sy : K)
    (i j : Nat) (hs : 0 ≤ sy) (hij : i ≠ j) :
    sy ≤ |child_y y0 sy i - child_y y0 sy j| := by
  have h1 : child_y y0 sy i - child_y y0 sy j = (((i : ℤ) - (j : ℤ) : ℤ) : K) * sy := by
    simp only [child_y, add_sub_add_left_eq_sub, ← sub_mul]
    push_cast
    ring_nf
  have h2 : (1 : ℤ) ≤ |(i : ℤ) - (j : ℤ)| := by
    apply Int.one_le_abs
    apply sub_ne_zero_of_ne
    exact_mod_cast hij
  rw [h1, abs_mul, abs_of_nonneg hs]
  have h3 : (1 : K) ≤ |(((i : ℤ) - (j : ℤ) : ℤ) : K)| := by
    rw [← Int.cast_abs]
    exact_mod_cast h2
  exact le_mul_of_one_le_left hs h3

/-- Witness for the C5 amended theorem at a concrete input. -/
theorem sibling_placement_spacing_witness :
    (60 : ℤ) ≤ |child_y (-60 : ℤ) 60 0 - child_y (-60 : ℤ) 60 1| :=
  sibling_placement_spacing (-60) 60 0 1 (by decide) (by decide)

/-- Port map of the C6 counterexample: two plugin ports with no edges and
no camera, so both are orphans. -/
def orphanPortMap : PortMap := [("O1", ⟨none, false⟩), ("O2", ⟨none, false⟩)]

/-- C6 counterexample: with y_spacing 60, both orphans are placed at the
same position (0, 0).  The claim predicts the second orphan at
y = y_spacing + max(assigned y) = 60, but `position_nodes` computes the
orphan y once before the loop and never advances it between orphan
placements. -/
theorem orphan_y_not_advanced :
    position_nodes ([] : List Edge) orphanPortMap (150 : ℤ) 60 0 0 1 =
      some [("O1", (0, 0)), ("O2", (0, 0))] ∧
    ((0 : ℤ), (0 : ℤ)) ≠ ((0 : ℤ), (60 : ℤ)) := by decide

section DomainLemmas

variable {K : Type} [LinearOrderedRing K]

omit [LinearOrderedRing K] in
theorem lookup_dictInsert_self (k : String) (v : K × K) :
    ∀ pos : PosMap K, List.lookup k (dictInsert k v pos) = some v
  | [] => by
    simp only [dictInsert, List.lookup]
    rw [show (k == k) = true from beq_self_eq_true k]
  | (k2, v2) :: rest => by
    rw [dictInsert]
    by_cases h : k2 = k
    · rw [if_pos h]
      simp only [List.lookup]
      rw [show (k == k) = true from beq_self_eq_true k]
    · rw [if_neg h]
      simp only [List.lookup]
      rw [show (k == k2) = false from beq_eq_false_iff_ne.mpr (Ne.symm h)]
      exact lookup_dictInsert_self k v rest

omit [LinearOrderedRing K] in
theorem lookup_dictInsert_ne (k q : String) (hq : q ≠ k) (v : K × K) :
    ∀ pos : PosMap K, List.lookup q (dictInsert k v pos) = List.lookup q pos
  | [] => by
    simp only [dictInsert, List.lookup]
    rw [show (q == k) = false from beq_eq_false_iff_ne.mpr hq]
  | (k2, v2) :: rest => by
    rw [dictInsert]
    by_cases h : k2 = k
    · rw [if_pos h, h]
      simp only [List.lookup]
      rw [show (q == k) = false from beq_eq_false_iff_ne.mpr hq]
    · rw [if_neg h]
      simp only [List.lookup]
      by_cases h2 : q = k2
      · rw [show (q == k2) = true from beq_iff_eq.mpr h2]
      · rw [show (q == k2) = false from beq_eq_false_iff_ne.mpr h2]
        exact lookup_dictInsert_ne k q hq v rest

omit [LinearOrderedRing K] in
theorem lookup_dictInsert_isSome (k q : String) (v : K × K) (pos : PosMap K)
    (h : (List.lookup q pos).isSome) :
    (List.lookup q (dictInsert k v pos)).isSome := by
  by_cases hq : q = k
  · rw [hq, lookup_dictInsert_self]; rfl
  · rwa [lookup_dictInsert_ne k q hq]

theorem position_children_mono_lookup {sy : K}
    {f : String → K → K → PosMap K → Option (PosMap K)}
    (hf : ∀ d cx cy p p2, f d cx cy p = some p2 →
      ∀ q, (List.lookup q p).isSome → (List.lookup q p2).isSome) :
    ∀ (l : List String) (idx : Nat) (cx y0 : K) (pos pos2 : PosMap K),
      position_children f sy l idx cx y0 pos = some pos2 →
      ∀ q, (List.lookup q pos).isSome → (List.lookup q pos2).isSome
  | [], _, _, _, pos, pos2, h => by
    rw [position_children, Option.some.injEq] at h
    rw [← h]
    exact fun q hq => hq
  | d :: rest, idx, cx, y0, pos, pos2, h => by
    rw [position_children] at h
    rcases hp : f d cx (child_y y0 sy idx) pos with _ | p1
    · rw [hp] at h; exact absurd h (by simp)
    · rw [hp] at h
      intro q hq
      exact position_children_mono_lookup hf rest (idx + 1) cx y0 p1 pos2 h q
        (hf d cx (child_y y0 sy idx) pos p1 hp q hq)

theorem position_port_mono_lookup (edges : List Edge) (sx sy : K) :
    ∀ (fuel : Nat) (port : String) (x y : K) (pos pos2 : PosMap K),
      position_port edges sx sy fuel port x y pos = some pos2 →
      ∀ q, (List.lookup q pos).isSome → (List.lookup q pos2).isSome
  | 0, port, x, y, pos, pos2, h => absurd h (by rw [position_port]; simp)
  | fuel + 1, port, x, y, pos, pos2, h => by
    rw [position_port] at h
    intro q hq
    exact position_children_mono_lookup (position_port_mono_lookup edges sx sy fuel) _ _ _ _
      _ _ h q (lookup_dictInsert_isSome port q (x, y) pos hq)

theorem position_port_assigns (edges : List Edge) (sx sy : K)
    (fuel : Nat) (port : String) (x y : K) (pos pos2 : PosMap K)
    (h : position_port edges sx sy fuel port x y pos = some pos2) :
    (List.lookup port pos2).isSome := by
  rcases fuel with _ | fuel
  · exact absurd h (by rw [position_port]; simp)
  · rw [position_port] at h
    refine position_children_mono_lookup (position_port_mono_lookup edges sx sy fuel) _ _ _ _
      _ _ h port ?_
    rw [lookup_dictInsert_self]
    rfl

theorem orphan_loop_mono_lookup (edges : List Edge) (sx sy : K) (fuel : Nat) :
    ∀ (l : List String) (x y : K) (pos pos2 : PosMap K),
      orphan_loop edges sx sy fuel l x y pos = some pos2 →
      ∀ q, (List.lookup q pos).isSome → (List.lookup q pos2).isSome
  | [], _, _, pos, pos2, h => by
    rw [orphan_loop, Option.some.injEq] at h
    rw [← h]
    exact fun q hq => hq
  | p :: rest, x, y, pos, pos2, h => by
    rw [orphan_loop] at h
    split at h
    · exact orphan_loop_mono_lookup edges sx sy fuel rest x y pos pos2 h
    · rcases hp : position_port edges sx sy fuel p x y pos with _ | p1
      · rw [hp] at h; exact absurd h (by simp)
      · rw [hp] at h
        intro q hq
        exact orphan_loop_mono_lookup edges sx sy fuel rest x y p1 pos2 h q
          (position_port_mono_lookup edges sx sy fuel p x y pos p1 hp q hq)

theorem orphan_loop_domain (edges : List Edge) (sx sy : K) (fuel : Nat) :
    ∀ (l : List String) (x y : K) (pos pos2 : PosMap K),
      orphan_loop edges sx sy fuel l x y pos = some pos2 →
      ∀ p ∈ l, (List.lookup p pos2).isSome
  | [], _, _, _, _, _, p, hp => absurd hp (List.not_mem_nil p)
  | p0 :: rest, x, y, pos, pos2, h, p, hp => by
    rw [orphan_loop] at h
    rcases List.mem_cons.mp hp with rfl | hrest
    · split at h
      · exact orphan_loop_mono_lookup edges sx sy fuel rest x y pos pos2 h p (by assumption)
      · rcases hpp : position_port edges sx sy fuel p x y pos with _ | p1
        · rw [hpp] at h; exact absurd h (by simp)
        · rw [hpp] at h
          exact orphan_loop_mono_lookup edges sx sy fuel rest x y p1 pos2 h p
            (position_port_assigns edges sx sy fuel p x y pos p1 hpp)
    · split at h
      · exact orphan_loop_domain edges sx sy fuel rest x y pos pos2 h p hrest
      · rcases hpp : position_port edges sx sy fuel p0 x y pos with _ | p1
        · rw [hpp] at h; exact absurd h (by simp)
        · rw [hpp] at h
          exact orphan_loop_domain edges sx sy fuel rest x y p1 pos2 h p hrest

/-- Every key of the port map receives a position whenever `position_nodes`
terminates within its fuel: the final orphan loop visits every key and
either finds it already positioned (and positions are never removed) or
places it. -/
theorem position_nodes_domain (edges : List Edge) (pm : PortMap) (sx sy x y : K)
    (fuel : Nat) (m : PosMap K) (h : position_nodes edges pm sx sy x y fuel = some m) :
    ∀ p ∈ keys pm, (List.lookup p m).isSome := by
  simp only [position_nodes] at h
  rcases hc : camera_loop edges sx sy fuel
      (List.insertionSort strLE ((pm.filter fun pc => pc.2.is_camera).map Prod.fst)) x y []
      with _ | posy
  · rw [hc] at h; exact absurd h (by simp)
  · rw [hc] at h
    exact orphan_loop_domain edges sx sy fuel (keys pm) x _ posy.1 m h

end DomainLemmas

/-- A placement with no edges just assigns the port itself: the child list
is empty, so the recursion stops after the dictionary insert. -/
theorem position_port_no_edges {K : Type} [LinearOrderedRing K] (sx sy : K) (f : Nat)
    (port : String) (x y : K) (pos : PosMap K) :
    position_port [] sx sy (f + 1) port x y pos = some (dictInsert port (x, y) pos) := rfl

/-- Evaluation of `position_nodes` on two camera-less, edge-less ports: both
orphans are placed at the same starting coordinates — the orphan loop never
advances `y`. -/
theorem two_orphan_layout {K : Type} [LinearOrderedRing K] (p q : String) (plA plB : Plugin)
    (sx sy x0 y0 : K) (fuel : Nat) (hpq : p ≠ q) (hA : plA.is_camera = false)
    (hB : plB.is_camera = false) (hf : 1 ≤ fuel) :
    position_nodes [] [(p, plA), (q, plB)] sx sy x0 y0 fuel =
      some [(p, (x0, y0)), (q, (x0, y0))] := by
  obtain ⟨f, rfl⟩ : ∃ f, fuel = f + 1 := ⟨fuel - 1, by omega⟩
  have hcam : (([(p, plA), (q, plB)] : PortMap).filter fun pc => pc.2.is_camera) = [] := by
    simp [List.filter_cons, hA, hB]
  simp only [position_nodes, hcam, List.map_nil, List.insertionSort, camera_loop,
    List.isEmpty_nil, if_pos, keys, List.map_cons, orphan_loop, List.lookup_nil,
    Option.isSome_none, Bool.false_eq_true, if_false, position_port_no_edges]
  have hlq : List.lookup q (dictInsert p (x0, y0) ([] : PosMap K)) = none := by
    simp only [dictInsert, List.lookup]
    rw [show (q == p) = false from beq_eq_false_iff_ne.mpr (Ne.symm hpq)]
  simp only [hlq, Option.isSome_none, Bool.false_eq_true, if_false,
    position_port_no_edges, orphan_loop]
  have : dictInsert q (x0, y0) (dictInsert p (x0, y0) ([] : PosMap K)) =
      [(p, (x0, y0)), (q, (x0, y0))] := by
    simp only [dictInsert]
    rw [if_neg hpq]
  rw [this]

/-- C6 amended: after the camera roots are processed every port of the port
map with no assigned position is still placed — it is present in the output
position map — starting at `x0` and in the port map's enumeration order;
but the orphan `y` is computed once before the loop (`y_spacing` plus the
maximum assigned y, when any position exists) and is not advanced between
successive orphan placements, so all orphan roots share the same
coordinates, as the generic two-orphan family shows. -/
theorem orphan_placement {K : Type} [LinearOrderedRing K] :
    (∀ (edges : List Edge) (pm : PortMap) (sx sy x y : K) (fuel : Nat) (m : PosMap K),
        position_nodes edges pm sx sy x y fuel = some m →
        ∀ p ∈ keys pm, (List.lookup p m).isSome) ∧
    (∀ (p q : String) (plA plB : Plugin) (sx sy x0 y0 : K) (fuel : Nat),
        p ≠ q → plA.is_camera = false → plB.is_camera = false → 1 ≤ fuel →
        position_nodes [] [(p, plA), (q, plB)] sx sy x0 y0 fuel =
          some [(p, (x0, y0)), (q, (x0, y0))]) :=
  ⟨fun edges pm sx sy x y fuel m h => position_nodes_domain edges pm sx sy x y fuel m h,
   fun p q plA plB sx sy x0 y0 fuel hpq hA hB hf =>
     two_orphan_layout p q plA plB sx sy x0 y0 fuel hpq hA hB hf⟩

/-- Witness for the C6 amended theorem at a concrete input. -/
theorem orphan_placement_witness :
    position_nodes ([] : List Edge) [("O1", Plugin.mk none false), ("O2", Plugin.mk none false)]
      (150 : ℤ) 60 0 0 1 = some [("O1", (0, 0)), ("O2", (0, 0))] :=
  (@orphan_placement ℤ _).2 "O1" "O2" (Plugin.mk none false) (Plugin.mk none false)
    150 60 0 0 1 (by decide) rfl rfl (by decide)

/-- C10: whenever `position_nodes` terminates, its domain contains every key
of the port map, and it can strictly exceed them: an id that appears as the
destination of an edge reachable from a camera root is positioned even when
it is not a key of the port map (port B in the concrete conjunct). -/
theorem position_domain_superset {K : Type} [LinearOrderedRing K] :
    (∀ (edges : List Edge) (pm : PortMap) (sx sy x y : K) (fuel : Nat) (m : PosMap K),
        position_nodes edges pm sx sy x y fuel = some m →
        ∀ p ∈ keys pm, (List.lookup p m).isSome) ∧
    (position_nodes [("A", "B")] [("A", Plugin.mk none true)] (150 : ℤ) 60 0 0 2 =
        some [("A", (0, 0)), ("B", (150, 0))] ∧
      "B" ∉ keys [("A", Plugin.mk none true)] ∧
      (List.lookup "B" [("A", ((0 : ℤ), (0 : ℤ))), ("B", (150, 0))]).isSome) :=
  ⟨fun edges pm sx sy x y fuel m h => position_nodes_domain edges pm sx sy x y fuel m h,
   by decide, by decide, by decide⟩

/-- Witness for C10 at a concrete input. -/
theorem position_domain_superset_witness :
    (List.lookup "A" [("A", ((0 : ℤ), (0 : ℤ))), ("B", (150, 0))]).isSome :=
  (@position_domain_superset ℤ _).1 [("A", "B")] [("A", Plugin.mk none true)] 150 60 0 0 2
    [("A", (0, 0)), ("B", (150, 0))] (by decide) "A" (by decide)

section Determinism

variable {K : Type} [LinearOrderedRing K]

theorem destsOf_perm {e1 e2 : List Edge} (h : e1.Perm e2) (port : String) :
    (destsOf e1 port).Perm (destsOf e2 port) :=
  (h.filter _).map _

theorem sortedDests_eq {e1 e2 : List Edge} (h : e1.Perm e2) (port : String) :
    List.insertionSort strLE (destsOf e1 port) =
      List.insertionSort strLE (destsOf e2 port) :=
  List.eq_of_perm_of_sorted
    ((List.perm_insertionSort strLE _).trans
      ((destsOf_perm h port).trans (List.perm_insertionSort strLE _).symm))
    (List.sorted_insertionSort strLE _) (List.sorted_insertionSort strLE _)

theorem position_children_congr {sy : K}
    {f g : String → K → K → PosMap K → Option (PosMap K)}
    (hfg : ∀ d cx cy p, f d cx cy p = g d cx cy p) :
    ∀ (l : List String) (idx : Nat) (cx y0 : K) (pos : PosMap K),
      position_children f sy l idx cx y0 pos = position_children g sy l idx cx y0 pos
  | [], _, _, _, _ => rfl
  | d :: rest, idx, cx, y0, pos => by
    rw [position_children, position_children, hfg d cx (child_y y0 sy idx) pos]
    rcases g d cx (child_y y0 sy idx) pos with _ | p1
    · rfl
    · exact position_children_congr hfg rest (idx + 1) cx y0 p1

theorem position_port_perm {e1 e2 : List Edge} (hp : e1.Perm e2) (sx sy : K) :
    ∀ (fuel : Nat) (port : String) (x y : K) (pos : PosMap K),
      position_port e1 sx sy fuel port x y pos = position_port e2 sx sy fuel port x y pos
  | 0, _, _, _, _ => rfl
  | fuel + 1, port, x, y, pos => by
    rw [position_port, position_port, sortedDests_eq hp port,
      (destsOf_perm hp port).length_eq]
    exact position_children_congr
      (fun d cx cy p => position_port_perm hp sx sy fuel d cx cy p) _ _ _ _ _

theorem camera_loop_perm {e1 e2 : List Edge} (hp : e1.Perm e2) (sx sy : K) (fuel : Nat) :
    ∀ (l : List String) (x y : K) (pos : PosMap K),
      camera_loop e1 sx sy fuel l x y pos = camera_loop e2 sx sy fuel l x y pos
  | [], _, _, _ => rfl
  | cam :: rest, x, y, pos => by
    rw [camera_loop, camera_loop, position_port_perm hp sx sy fuel cam x y pos]
    rcases position_port e2 sx sy fuel cam x y pos with _ | p1
    · rfl
    · exact camera_loop_perm hp sx sy fuel rest x (sy + maxY p1) p1

theorem orphan_loop_perm {e1 e2 : List Edge} (hp : e1.Perm e2) (sx sy : K) (fuel : Nat) :
    ∀ (l : List String) (x y : K) (pos : PosMap K),
      orphan_loop e1 sx sy fuel l x y pos = orphan_loop e2 sx sy fuel l x y pos
  | [], _, _, _ => rfl
  | p :: rest, x, y, pos => by
    rw [orphan_loop, orphan_loop]
    by_cases h : (List.lookup p pos).isSome
    · rw [if_pos h, if_pos h]
      exact orphan_loop_perm hp sx sy fuel rest x y pos
    · rw [if_neg h, if_neg h, position_port_perm hp sx sy fuel p x y pos]
      rcases position_port e2 sx sy fuel p x y pos with _ | p1
      · rfl
      · exact orphan_loop_perm hp sx sy fuel rest x y p1

theorem position_nodes_perm {e1 e2 : List Edge} (hp : e1.Perm e2) (pm : PortMap)
    (sx sy x y : K) (fuel : Nat) :
    position_nodes e1 pm sx sy x y fuel = position_nodes e2 pm sx sy x y fuel := by
  simp only [position_nodes]
  rw [camera_loop_perm hp sx sy fuel]
  rcases hcl : camera_loop e2 sx sy fuel
      (List.insertionSort strLE ((pm.filter fun pc => pc.2.is_camera).map Prod.fst)) x y []
      with _ | posy
  · rw [hcl]
  · obtain ⟨pos1, y1⟩ := posy
    rw [hcl]
    exact orphan_loop_perm hp sx sy fuel (keys pm) x _ pos1

end Determinism

/-- C7: the layout is deterministic.  `position_nodes` is a pure function,
so two calls on identical inputs give identical results; and two edge-list
representations of the same edge set that differ only in iteration order
(no duplicates, equal underlying sets) give identical position maps: the
only uses of the edge list are the per-port child list, whose sorted form
and length are order-invariant. -/
theorem layout_deterministic {K : Type} [LinearOrderedRing K]
    (e1 e2 : List Edge) (pm : PortMap) (sx sy x y : K) (fuel : Nat)
    (h1 : e1.Nodup) (h2 : e2.Nodup) (hset : e1.toFinset = e2.toFinset) :
    position_nodes e1 pm sx sy x y fuel = position_nodes e1 pm sx sy x y fuel ∧
    position_nodes e1 pm sx sy x y fuel = position_nodes e2 pm sx sy x y fuel :=
  ⟨rfl, position_nodes_perm (List.perm_of_nodup_nodup_toFinset_eq h1 h2 hset) pm sx sy x y fuel⟩

/-- Witness for C7 at a concrete input: the same two-edge set presented in
two insertion orders. -/
theorem layout_deterministic_witness :
    position_nodes [("a", "b"), ("c", "d")] [("a", Plugin.mk none true)] (150 : ℤ) 60 0 0 3 =
      position_nodes [("c", "d"), ("a", "b")] [("a", Plugin.mk none true)] (150 : ℤ) 60 0 0 3 :=
  (layout_deterministic [("a", "b"), ("c", "d")] [("c", "d"), ("a", "b")]
    [("a", Plugin.mk none true)] (150 : ℤ) 60 0 0 3 (by decide) (by decide) (by decide)).2

section Termination

variable {K : Type} [LinearOrderedRing K]

theorem position_children_some_mono {sy : K}
    {f g : String → K → K → PosMap K → Option (PosMap K)}
    (hfg : ∀ d cx cy p r, f d cx cy p = some r → g d cx cy p = some r) :
    ∀ (l : List String) (idx : Nat) (cx y0 : K) (pos pos2 : PosMap K),
      position_children f sy l idx cx y0 pos = some pos2 →
      position_children g sy l idx cx y0 pos = some pos2
  | [], _, _, _, _, _, h => h
  | d :: rest, idx, cx, y0, pos, pos2, h => by
    rw [position_children] at h ⊢
    rcases hf : f d cx (child_y y0 sy idx) pos with _ | p1
    · rw [hf] at h; exact absurd h (by simp)
    · rw [hf] at h
      rw [hfg d cx (child_y y0 sy idx) pos p1 hf]
      exact position_children_some_mono hfg rest (idx + 1) cx y0 p1 pos2 h

theorem position_port_succ (edges : List Edge) (sx sy : K) :
    ∀ (fuel : Nat) (port : String) (x y : K) (pos pos2 : PosMap K),
      position_port edges sx sy fuel port x y pos = some pos2 →
      position_port edges sx sy (fuel + 1) port x y pos = some pos2
  | 0, _, _, _, _, _, h => absurd h (by rw [position_port]; simp)
  | fuel + 1, port, x, y, pos, pos2, h => by
    rw [position_port] at h ⊢
    exact position_children_some_mono
      (fun d cx cy p r h2 => position_port_succ edges sx sy fuel d cx cy p r h2) _ _ _ _ _ _ h

theorem position_port_mono_fuel (edges : List Edge) (sx sy : K) :
    ∀ (m n : Nat), n ≤ m → ∀ (port : String) (x y : K) (pos pos2 : PosMap K),
      position_port edges sx sy n port x y pos = some pos2 →
      position_port edges sx sy m port x y pos = some pos2
  | 0, n, hnm, port, x, y, pos, pos2, h => by
    obtain rfl : n = 0 := by omega
    exact h
  | m + 1, n, hnm, port, x, y, pos, pos2, h => by
    by_cases hn : n ≤ m
    · exact position_port_succ edges sx sy m port x y pos pos2
        (position_port_mono_fuel edges sx sy m n hn port x y pos pos2 h)
    · obtain rfl : n = m + 1 := by omega
      exact h

theorem mem_destsOf {edges : List Edge} {port d : String} (h : d ∈ destsOf edges port) :
    (port, d) ∈ edges ∧ port ≠ d := by
  simp only [destsOf, List.mem_map, List.mem_filter, decide_eq_true_eq] at h
  obtain ⟨e, ⟨he, h1, h2⟩, rfl⟩ := h
  subst h1
  exact ⟨Prod.mk.eta ▸ he, h2⟩

/-- A self-edge is never traversed as a parent-child relation: the child
list of a port never contains the port itself. -/
theorem not_self_dest (edges : List Edge) (port : String) : port ∉ destsOf edges port :=
  fun h => (mem_destsOf h).2 rfl

theorem position_children_total (edges : List Edge) (sx sy : K) :
    ∀ (l : List String),
      (∀ d ∈ l, ∀ (x2 y2 : K) (pos3 : PosMap K),
        ∃ n pos2, position_port edges sx sy n d x2 y2 pos3 = some pos2) →
      ∀ (idx : Nat) (cx y0 : K) (pos : PosMap K),
        ∃ n pos2,
          position_children (fun d cx2 cy p => position_port edges sx sy n d cx2 cy p) sy
            l idx cx y0 pos = some pos2
  | [], _, idx, cx, y0, pos => ⟨0, pos, rfl⟩
  | d :: rest, hl, idx, cx, y0, pos => by
    obtain ⟨n1, p1, h1⟩ := hl d (List.mem_cons_self d rest) cx (child_y y0 sy idx) pos
    obtain ⟨n2, p2, h2⟩ :=
      position_children_total edges sx sy rest
        (fun d2 hd2 => hl d2 (List.mem_cons_of_mem d hd2)) (idx + 1) cx y0 p1
    refine ⟨max n1 n2, p2, ?_⟩
    rw [position_children]
    rw [position_port_mono_fuel edges sx sy (max n1 n2) n1 (le_max_left n1 n2) d cx
      (child_y y0 sy idx) pos p1 h1]
    exact position_children_some_mono
      (fun d2 cx2 cy2 p r h => position_port_mono_fuel edges sx sy (max n1 n2) n2
        (le_max_right n1 n2) d2 cx2 cy2 p r h) rest (idx + 1) cx y0 p1 p2 h2

theorem position_port_total (edges : List Edge) (sx sy : K) (port : String)
    (hacc : Acc (fun d p : String => (p, d) ∈ edges ∧ p ≠ d) port) :
    ∀ (x y : K) (pos : PosMap K),
      ∃ n pos2, position_port edges sx sy n port x y pos = some pos2 := by
  induction hacc with
  | intro port hstep IH =>
    intro x y pos
    have hl : ∀ d ∈ List.insertionSort strLE (destsOf edges port),
        ∀ (x2 y2 : K) (pos3 : PosMap K),
          ∃ n pos2, position_port edges sx sy n d x2 y2 pos3 = some pos2 := by
      intro d hd
      exact IH d (mem_destsOf ((List.mem_insertionSort strLE).mp hd))
    obtain ⟨n, pos2, h⟩ := position_children_total edges sx sy
      (List.insertionSort strLE (destsOf edges port)) hl 0 (x + sx)
      (y - sy * (((destsOf edges port).length / 2 : Nat) : K)) (dictInsert port (x, y) pos)
    exact ⟨n + 1, pos2, by rw [position_port]; exact h⟩

theorem camera_loop_succ (edges : List Edge) (sx sy : K) :
    ∀ (fuel : Nat) (l : List String) (x y : K) (pos : PosMap K) (r : PosMap K × K),
      camera_loop edges sx sy fuel l x y pos = some r →
      camera_loop edges sx sy (fuel + 1) l x y pos = some r
  | _, [], _, _, _, _, h => h
  | fuel, cam :: rest, x, y, pos, r, h => by
    rw [camera_loop] at h ⊢
    rcases hp : position_port edges sx sy fuel cam x y pos with _ | p1
    · rw [hp] at h; exact absurd h (by simp)
    · rw [hp] at h
      rw [position_port_succ edges sx sy fuel cam x y pos p1 hp]
      exact camera_loop_succ edges sx sy fuel rest x (sy + maxY p1) p1 r h

theorem camera_loop_mono_fuel (edges : List Edge) (sx sy : K) :
    ∀ (m n : Nat), n ≤ m → ∀ (l : List String) (x y : K) (pos : PosMap K) (r : PosMap K × K),
      camera_loop edges sx sy n l x y pos = some r →
      camera_loop edges sx sy m l x y pos = some r
  | 0, n, hnm, l, x, y, pos, r, h => by
    obtain rfl : n = 0 := by omega
    exact h
  | m + 1, n, hnm, l, x, y, pos, r, h => by
    by_cases hn : n ≤ m
    · exact camera_loop_succ edges sx sy m l x y pos r
        (camera_loop_mono_fuel edges sx sy m n hn l x y pos r h)
    · obtain rfl : n = m + 1 := by omega
      exact h

theorem orphan_loop_succ (edges : List Edge) (sx sy : K) :
    ∀ (fuel : Nat) (l : List String) (x y : K) (pos pos2 : PosMap K),
      orphan_loop edges sx sy fuel l x y pos = some pos2 →
      orphan_loop edges sx sy (fuel + 1) l x y pos = some pos2
  | _, [], _, _, _, _, h => h
  | fuel, p :: rest, x, y, pos, pos2, h => by
    rw [orphan_loop] at h ⊢
    by_cases hli : (List.lookup p pos).isSome
    · rw [if_pos hli] at h ⊢
      exact orphan_loop_succ edges sx sy fuel rest x y pos pos2 h
    · rw [if_neg hli] at h ⊢
      rcases hp : position_port edges sx sy fuel p x y pos with _ | p1
      · rw [hp] at h; exact absurd h (by simp)
      · rw [hp] at h
        rw [position_port_succ edges sx sy fuel p x y pos p1 hp]
        exact orphan_loop_succ edges sx sy fuel rest x y p1 pos2 h

theorem orphan_loop_mono_fuel (edges : List Edge) (sx sy : K) :
    ∀ (m n : Nat), n ≤ m → ∀ (l : List String) (x y : K) (pos pos2 : PosMap K),
      orphan_loop edges sx sy n l x y pos = some pos2 →
      orphan_loop edges sx sy m l x y pos = some pos2
  | 0, n, hnm, l, x, y, pos, pos2, h => by
    obtain rfl : n = 0 := by omega
    exact h
  | m + 1, n, hnm, l, x, y, pos, pos2, h => by
    by_cases hn : n ≤ m
    · exact orphan_loop_succ edges sx sy m l x y pos pos2
        (orphan_loop_mono_fuel edges sx sy m n hn l x y pos pos2 h)
    · obtain rfl : n = m + 1 := by omega
      exact h

theorem camera_loop_total (edges : List Edge) (sx sy : K)
    (hwf : WellFounded (fun d p : String => (p, d) ∈ edges ∧ p ≠ d)) :
    ∀ (l : List String) (x y : K) (pos : PosMap K),
      ∃ n r, camera_loop edges sx sy n l x y pos = some r
  | [], x, y, pos => ⟨0, (pos, y), rfl⟩
  | cam :: rest, x, y, pos => by
    obtain ⟨n1, p1, h1⟩ := position_port_total edges sx sy cam (hwf.apply cam) x y pos
    obtain ⟨n2, r2, h2⟩ := camera_loop_total edges sx sy hwf rest x (sy + maxY p1) p1
    refine ⟨max n1 n2, r2, ?_⟩
    rw [camera_loop]
    rw [position_port_mono_fuel edges sx sy (max n1 n2) n1 (le_max_left n1 n2) cam x y
      pos p1 h1]
    exact camera_loop_mono_fuel edges sx sy (max n1 n2) n2 (le_max_right n1 n2) rest x
      (sy + maxY p1) p1 r2 h2

theorem orphan_loop_total (edges : List Edge) (sx sy : K)
    (hwf : WellFounded (fun d p : String => (p, d) ∈ edges ∧ p ≠ d)) :
    ∀ (l : List String) (x y : K) (pos : PosMap K),
      ∃ n pos2, orphan_loop edges sx sy n l x y pos = some pos2
  | [], x, y, pos => ⟨0, pos, rfl⟩
  | p :: rest, x, y, pos => by
    by_cases hli : (List.lookup p pos).isSome
    · obtain ⟨n, pos2, h⟩ := orphan_loop_total edges sx sy hwf rest x y pos
      refine ⟨n, pos2, ?_⟩
      rw [orphan_loop, if_pos hli]
      exact h
    · obtain ⟨n1, p1, h1⟩ := position_port_total edges sx sy p (hwf.apply p) x y pos
      obtain ⟨n2, pos2, h2⟩ := orphan_loop_total edges sx sy hwf rest x y p1
      refine ⟨max n1 n2, pos2, ?_⟩
      rw [orphan_loop, if_neg hli]
      rw [position_port_mono_fuel edges sx sy (max n1 n2) n1 (le_max_left n1 n2) p x y
        pos p1 h1]
      exact orphan_loop_mono_fuel edges sx sy (max n1 n2) n2 (le_max_right n1 n2) rest x y
        p1 pos2 h2

theorem position_nodes_total (edges : List Edge) (sx sy : K)
    (hwf : WellFounded (fun d p : String => (p, d) ∈ edges ∧ p ≠ d))
    (pm : PortMap) (x y : K) :
    ∃ fuel m, position_nodes edges pm sx sy x y fuel = some m := by
  obtain ⟨n1, ⟨pos1, y1⟩, h1⟩ := camera_loop_total edges sx sy hwf
    (List.insertionSort strLE ((pm.filter fun pc => pc.2.is_camera).map Prod.fst)) x y []
  obtain ⟨n2, m, h2⟩ := orphan_loop_total edges sx sy hwf (keys pm) x
    (if pos1.isEmpty then y1 else sy + maxY pos1) pos1
  refine ⟨max n1 n2, m, ?_⟩
  simp only [position_nodes]
  rw [camera_loop_mono_fuel edges sx sy (max n1 n2) n1 (le_max_left n1 n2) _ x y [] _ h1]
  exact orphan_loop_mono_fuel edges sx sy (max n1 n2) n2 (le_max_right n1 n2) (keys pm) x
    (if pos1.isEmpty then y1 else sy + maxY pos1) pos1 m h2

end Termination

/-- C8: the layout terminates on every edge list whose parent-child
relation restricted to non-self edges is acyclic (formalised as
well-foundedness of the child-of relation): some finite recursion depth
suffices for `position_nodes` to complete on any port map and start
coordinates.  Moreover a self-edge (a, a) is never traversed as a
parent-child relation — a port never appears in its own child list — so a
self-edge alone cannot cause non-termination (the witness instantiates the
theorem with an edge list consisting of exactly one self-edge). -/
theorem layout_total_on_acyclic {K : Type} [LinearOrderedRing K] (edges : List Edge)
    (sx sy : K) (hwf : WellFounded (fun d p : String => (p, d) ∈ edges ∧ p ≠ d)) :
    (∀ (pm : PortMap) (x y : K), ∃ fuel m, position_nodes edges pm sx sy x y fuel = some m) ∧
    (∀ port : String, port ∉ destsOf edges port) :=
  ⟨fun pm x y => position_nodes_total edges sx sy hwf pm x y,
   fun port => not_self_dest edges port⟩

/-- Witness for C8: an edge list containing only the self-edge (a, a), on
which the child-of relation is empty and hence well-founded. -/
theorem layout_total_on_acyclic_witness :
    (∃ fuel m, position_nodes [("a", "a")] [("a", Plugin.mk none true)] (150 : ℤ) 60 0 0 fuel
        = some m) ∧
    "a" ∉ destsOf [("a", "a")] "a" := by
  have hwf : WellFounded
      (fun d p : String => (p, d) ∈ [(("a" : String), ("a" : String))] ∧ p ≠ d) := by
    refine ⟨fun x => Acc.intro x fun y hy => ?_⟩
    obtain ⟨hmem, hne⟩ := hy
    rw [List.mem_singleton, Prod.mk.injEq] at hmem
    exact absurd (hmem.1.trans hmem.2.symm) hne
  exact ⟨(layout_total_on_acyclic [("a", "a")] (150 : ℤ) 60 hwf).1
      [("a", Plugin.mk none true)] 0 0,
    (layout_total_on_acyclic [("a", "a")] (150 : ℤ) 60 hwf).2 "a"⟩

end PortGraph
